import Mathlib

/-!
Verification development for the apostrophecms-astro-static exporter.

The JavaScript sources are shallowly embedded as executable Lean functions.
Strings are manipulated through their underlying character lists so that the
embedding stays fully computable and proofs can proceed by structural
induction.  Library behaviour used by the code (`String.prototype.split`,
`URLSearchParams`, `String.prototype.localeCompare` under the default ICU
root locale, WHATWG `new URL`) is modelled for the ASCII inputs the exporter
actually handles; each such model carries a doc comment stating its scope.
-/

namespace AposStatic

/-! ### Character-list string primitives

Models of the JavaScript string operations used by `utils.js` and the
processors.  `splitOnChar` models `String.prototype.split` with a one-character
separator (all pieces); `splitFirstChar` models the first-occurrence split used
by `URLSearchParams` entry parsing and `indexOf`-based code.
-/

/-- Model of `s.split(sep)` for a single-character separator: the list of
pieces between occurrences of `sep` (never empty, `n` separators give `n+1`
pieces). -/
def splitOnChar (sep : Char) : List Char → List (List Char)
  | [] => [[]]
  | c :: cs =>
    if c = sep then [] :: splitOnChar sep cs
    else
      match splitOnChar sep cs with
      | [] => [[c]]
      | p :: ps => (c :: p) :: ps

/-- Split at the first occurrence of `sep`: returns the piece before it and,
when `sep` occurs, the remainder after it. -/
def splitFirstChar (sep : Char) : List Char → List Char × Option (List Char)
  | [] => ([], none)
  | c :: cs =>
    if c = sep then ([], some cs)
    else
      let r := splitFirstChar sep cs
      (c :: r.1, r.2)

/-- Hexadecimal digit value, as used by percent-decoding. -/
def hexVal (c : Char) : Option Nat :=
  if '0' ≤ c ∧ c ≤ '9' then some (c.toNat - '0'.toNat)
  else if 'a' ≤ c ∧ c ≤ 'f' then some (c.toNat - 'a'.toNat + 10)
  else if 'A' ≤ c ∧ c ≤ 'F' then some (c.toNat - 'A'.toNat + 10)
  else none

/-- Model of `application/x-www-form-urlencoded` token decoding as performed by
`URLSearchParams`: `+` becomes a space and `%hh` becomes the character with
code `hh`; malformed `%` sequences are kept literally.  Faithful for the ASCII
byte range (multi-byte UTF-8 decoding is out of the modelled domain). -/
def formDecode : List Char → List Char
  | [] => []
  | '%' :: a :: b :: rest =>
    match hexVal a, hexVal b with
    | some x, some y => Char.ofNat (16 * x + y) :: formDecode rest
    | _, _ => '%' :: formDecode (a :: b :: rest)
  | c :: rest => (if c = '+' then ' ' else c) :: formDecode rest

/-- One `key=value` segment of a query string, decoded; a segment without `=`
yields an empty value, a segment with several `=` splits at the first. -/
def entryOfSegment (seg : List Char) : List Char × List Char :=
  match splitFirstChar '=' seg with
  | (k, none) => (formDecode k, [])
  | (k, some v) => (formDecode k, formDecode v)

/-- Model of `Array.from(new URLSearchParams(search).entries())`: strip one
leading `?`, split on `&`, drop empty segments, decode each segment. -/
def searchParamsEntries (search : List Char) : List (List Char × List Char) :=
  let s := match search with
    | '?' :: rest => rest
    | other => other
  ((splitOnChar '&' s).filter (fun seg => seg ≠ [])).map entryOfSegment

/-! ### The `localeCompare` ordering

`queryParamsToPath` sorts parameter entries with
`a[0].localeCompare(b[0])`.  Under Node's default (ICU root) collation,
ASCII strings compare primarily by case-folded letter (digits before
letters) and, when the primary keys tie, lowercase sorts before uppercase.
The model below is faithful for ASCII alphanumeric keys; other characters
are given arbitrary but consistent slots after the letters. -/

/-- Primary collation weight of a character (ICU root locale, ASCII scope):
digits in numeric order, then letters case-folded, then everything else. -/
def localePrim (c : Char) : Nat :=
  if c.isDigit then c.toNat
  else if c.isAlpha then 1000 + c.toLower.toNat
  else 2000 + c.toNat

/-- Case (tertiary) weight: lowercase before uppercase. -/
def caseWeight (c : Char) : Nat := if c.isUpper then 1 else 0

/-- Strict lexicographic order on weight lists. -/
def lexLt : List Nat → List Nat → Bool
  | [], [] => false
  | [], _ :: _ => true
  | _ :: _, [] => false
  | a :: as, b :: bs => a < b || (a = b && lexLt as bs)

/-- `localeLt a b` models `a.localeCompare(b) < 0` for the default root
locale, restricted to ASCII: compare the full primary key sequences first
and only on a tie compare the case sequences. -/
def localeLt (a b : List Char) : Bool :=
  lexLt (a.map localePrim) (b.map localePrim) ||
    (a.map localePrim = b.map localePrim && lexLt (a.map caseWeight) (b.map caseWeight))

/-- Stable insertion of one entry into a key-sorted entry list: the new entry
goes before the first strictly greater key, hence after all equal keys —
exactly the placement a stable comparator sort gives. -/
def insertEntry (x : List Char × List Char) :
    List (List Char × List Char) → List (List Char × List Char)
  | [] => [x]
  | y :: ys => if localeLt x.1 y.1 then x :: y :: ys else y :: insertEntry x ys

/-- Model of `entries.sort((a, b) => a[0].localeCompare(b[0]))`
(`Array.prototype.sort` is stable). -/
def sortEntries (l : List (List Char × List Char)) : List (List Char × List Char) :=
  l.foldr insertEntry []

/-! ### `queryParamsToPath` (src/utils.js) -/

/-- The sorted entry list `queryParamsToPath` iterates over. -/
def canonicalEntries (search : List Char) : List (List Char × List Char) :=
  sortEntries (searchParamsEntries search)

/-- The `parts` array of `queryParamsToPath`: each entry with a non-empty
value rendered as `key-value`. -/
def canonicalParts (search : List Char) : List (List Char) :=
  (canonicalEntries search).filterMap fun e =>
    if e.2 = [] then none else some (e.1 ++ '-' :: e.2)

/-- `parts.join('-')`. -/
def joinParts : List (List Char) → List Char
  | [] => []
  | [p] => p
  | p :: q :: rest => p ++ '-' :: joinParts (q :: rest)

/-- Embedding of `queryParamsToPath` (src/utils.js lines 81–105).
`urlPath.split('?')` destructured as `[pathname, search]` keeps only the
first two pieces; an absent or empty `search` is falsy and returns the
pathname unchanged; otherwise the sorted non-empty-valued parameters are
rendered as `key-value` segments joined by `-`, appended after stripping one
trailing `/` from the path portion. -/
def queryParamsToPath (urlPath : String) : String :=
  let pieces := splitOnChar '?' urlPath.data
  match pieces with
  | [] => urlPath
  | [pathname] => String.mk pathname
  | pathname :: search :: _ =>
    if search = [] then String.mk pathname
    else
      let parts := canonicalParts search
      if parts = [] then String.mk pathname
      else
        let cleanPath := if pathname.getLast? = some '/' then pathname.dropLast else pathname
        String.mk (cleanPath ++ '/' :: (joinParts parts ++ ['/']))

/-- Modelled from the spec: the canonicalization §4.1 claims — parameters
sorted by key in case-sensitive byte order.  Identical to
`queryParamsToPath` except that the sort comparator is raw code-unit
comparison instead of `localeCompare`. -/
def byteLt (a b : List Char) : Bool :=
  lexLt (a.map Char.toNat) (b.map Char.toNat)

/-- Modelled from the spec: stable insertion under byte order. -/
def insertEntryByte (x : List Char × List Char) :
    List (List Char × List Char) → List (List Char × List Char)
  | [] => [x]
  | y :: ys => if byteLt x.1 y.1 then x :: y :: ys else y :: insertEntryByte x ys

/-- Modelled from the spec: `queryParamsToPath` as §4.1 words it, with the
query keys sorted in case-sensitive byte order. -/
def queryParamsToPathSpecByte (urlPath : String) : String :=
  let pieces := splitOnChar '?' urlPath.data
  match pieces with
  | [] => urlPath
  | [pathname] => String.mk pathname
  | pathname :: search :: _ =>
    if search = [] then String.mk pathname
    else
      let parts := ((searchParamsEntries search).foldr insertEntryByte []).filterMap fun e =>
        if e.2 = [] then none else some (e.1 ++ '-' :: e.2)
      if parts = [] then String.mk pathname
      else
        let cleanPath := if pathname.getLast? = some '/' then pathname.dropLast else pathname
        String.mk (cleanPath ++ '/' :: (joinParts parts ++ ['/']))

/-! ### `normalizeUrl` (src/sitemap.js) -/

/-- Model of `new URL(urlString, "http://dummy").pathname` for the inputs the
sitemap handles: absolute `http(s)://` URLs (scheme and authority stripped,
empty path becomes `/`) and origin-relative or relative references (the part
before the first `?` or `#`).  Modelled domain: no userinfo, no backslashes,
no `.`/`..` path segments, no characters requiring percent-encoding; for a
relative reference the missing leading `/` is restored by `normalizeUrl`'s
own `startsWith("/")` check, matching resolution against the dummy base. -/
def urlPathnameRaw (cs : List Char) : List Char :=
  let httpPre : List Char := ['h', 't', 't', 'p', ':', '/', '/']
  let httpsPre : List Char := ['h', 't', 't', 'p', 's', ':', '/', '/']
  if httpPre.isPrefixOf cs ∨ httpsPre.isPrefixOf cs then
    let rest := if httpsPre.isPrefixOf cs then cs.drop 8 else cs.drop 7
    let after := rest.dropWhile (fun c => c ≠ '/' ∧ c ≠ '?' ∧ c ≠ '#')
    match after with
    | '/' :: _ => after.takeWhile (fun c => c ≠ '?' ∧ c ≠ '#')
    | _ => ['/']
  else
    cs.takeWhile (fun c => c ≠ '?' ∧ c ≠ '#')

/-- The `if (!pathname.startsWith("/")) pathname = "/" + pathname;` step of
`normalizeUrl` (a defensive check in the source; for a relative reference it
also restores the leading `/` the base-resolution would have added). -/
def ensureLeadingSlash (p : List Char) : List Char :=
  if p.head? = some '/' then p else '/' :: p

/-- The trailing-slash step of `normalizeUrl`: append `/` when the pathname
ends in neither `.html` nor `.htm`, contains no `.` at all, and does not
already end in `/`.  (The two `endsWith` conjuncts are implied by
`!pathname.includes(".")` but are kept as written.) -/
def addTrailingSlash (p1 : List Char) : List Char :=
  if ¬ (".html".data.isSuffixOf p1) ∧ ¬ (".htm".data.isSuffixOf p1) ∧ ¬ p1.contains '.' then
    if p1.getLast? = some '/' then p1 else p1 ++ ['/']
  else p1

/-- Embedding of `normalizeUrl` (sitemap generator, lines 10–39), `try`
branch: take the parsed pathname, ensure a leading `/`, and append a
trailing `/` when the pathname does not end in `.html`/`.htm` and contains
no `.` at all.  In the modelled domain `new URL(urlString, "http://dummy")`
never throws, so the regex fallback of the `catch` branch is dead code. -/
def normalizeUrl (s : String) : String :=
  String.mk (addTrailingSlash (ensureLeadingSlash (urlPathnameRaw s.data)))

/-- The trailing-extension test `/\.[a-z0-9]+$/i` shared by `normalizeUrl`'s
fallback branch and `writeHtmlForPath`'s `isFile` check: a final `.` followed
by one or more ASCII letters or digits. -/
def isFilePattern (s : String) : Bool :=
  let r := s.data.reverse
  let ext := r.takeWhile (fun c => c.isDigit ∨ c.isAlpha)
  ext ≠ [] && (r.drop ext.length).head? = some '.'

/-! ### `writeHtmlForPath` (src/utils.js) — output path computation -/

/-- The file path `writeHtmlForPath(rootDir, urlPath, html)` writes to
(the pure part of the function; directory creation and the write itself are
I/O).  `path.join` is modelled as `/`-separated concatenation collapsing the
duplicate separator at each seam, which is its behaviour on the slash-normal
inputs produced here. -/
def writeOutputPath (rootDir urlPath : String) : String :=
  let staticPath := queryParamsToPath urlPath
  if isFilePattern staticPath then
    let rel := match staticPath.data with
      | '/' :: rest => rest
      | other => other
    String.mk (rootDir.data ++ '/' :: rel)
  else if staticPath = "/" then
    String.mk (rootDir.data ++ "/index.html".data)
  else
    let rel := match staticPath.data with
      | '/' :: rest => rest
      | other => other
    let rel := if rel.getLast? = some '/' then rel else rel ++ ['/']
    String.mk (rootDir.data ++ '/' :: (rel ++ "index.html".data))

/-! ### `fetchWithRetry` (src/utils.js lines 16–41)

One attempt of `fetchWithTimeout` either produces an HTTP response with a
status code or throws (network failure / timeout abort).  The attempt
schedule is abstracted as an oracle from the attempt index to its outcome;
backoff delays have no observable effect on the result and are dropped. -/

/-- Outcome of a single `fetchWithTimeout` attempt. -/
inductive Outcome where
  | resp (status : Nat)
  | netErr
deriving DecidableEq, Repr

/-- The error carried by the exporter's fetch failures: the last HTTP status
seen, or a network/timeout error. -/
inductive FetchErr where
  | http (status : Nat)
  | network
deriving DecidableEq, Repr

/-- Loop body of `fetchWithRetry`, at loop index `attempt` with
`remaining = retries - attempt` iterations left after this one.  A 2xx
response returns immediately.  A 4xx (non-429) status reaches
`throw new Error(...)` inside the `try`, which the `catch (error)` of the
same iteration swallows into `lastError` — so it is recorded exactly like
any other non-ok status and the loop continues.  The second component is
the number of attempts performed. -/
def fetchRetryGo (oracle : Nat → Outcome) (attempt remaining : Nat) (_lastErr : FetchErr) :
    Except FetchErr Nat × Nat :=
  let next : FetchErr → Except FetchErr Nat × Nat := fun e =>
    match remaining with
    | 0 => (.error e, attempt + 1)
    | r + 1 => fetchRetryGo oracle (attempt + 1) r e
  match oracle attempt with
  | .resp s =>
    if 200 ≤ s ∧ s < 300 then (.ok s, attempt + 1)
    else next (.http s)
  | .netErr => next .network

/-- Embedding of `fetchWithRetry(url, options, timeoutMs, retries)`: run the
loop from attempt 0 with `retries` further iterations allowed.  The initial
`lastError` is the uninitialised `let lastError`; the loop always runs at
least one iteration, so it is never thrown — `FetchErr.network` stands in as
the dummy. -/
def fetchWithRetry (oracle : Nat → Outcome) (retries : Nat) : Except FetchErr Nat × Nat :=
  fetchRetryGo oracle 0 retries .network

/-! ### `mapLimit` (src/utils.js lines 126–145)

`mapLimit` spawns `limit` async runners over one shared queue.  Node's
single-threaded event loop makes `queue.shift()` atomic, so each item is
claimed by exactly one runner; with `limit ≥ 1` every item is processed and
only the completion interleaving (not the counters or the per-item results)
depends on `limit`.  The embedding keeps `limit` and collapses the
interleaving to queue order; with `limit = 0` no runner exists and nothing
runs, as in the source.  The worker is modelled as a deterministic
success/failure function; the second component records the worker
invocations in order. -/

structure MapResults (α : Type) where
  success : Nat
  failed : Nat
  errors : List (α × String)
deriving DecidableEq

/-- Drain the queue: one worker invocation per item, counting successes and
failures and recording `{item, error}` for each failure. -/
def mapLimitGo (worker : α → Except String Unit) :
    List α → MapResults α → List α → MapResults α × List α
  | [], acc, trace => (acc, trace)
  | item :: rest, acc, trace =>
    match worker item with
    | .ok _ => mapLimitGo worker rest { acc with success := acc.success + 1 } (trace ++ [item])
    | .error msg =>
      mapLimitGo worker rest
        { acc with failed := acc.failed + 1, errors := acc.errors ++ [(item, msg)] }
        (trace ++ [item])

/-- Embedding of `mapLimit(items, limit, worker)`. -/
def mapLimit (items : List α) (limit : Nat) (worker : α → Except String Unit) :
    MapResults α × List α :=
  if limit = 0 then (⟨0, 0, []⟩, [])
  else mapLimitGo worker items ⟨0, 0, []⟩ []

/-! ### Sitemap discovery (src/sitemap.js)

The HTTP world is abstracted as deterministic per-endpoint outcomes: a
request either throws (`Except.error ()`, a network failure or timeout from
`fetchWithTimeout`) or yields a response with an `ok` flag and a parsed JSON
payload.  Payloads are modelled at the shape the code reads: pages and piece
listings as lists of optional `_url` strings (`none` when `_url` is missing
or not a string), the probe of the API root as the object's keys (`none`
when the JSON is not a plain object).  Locale only changes the query string
of piece requests, so the world is indexed by piece type and page number
only. -/

/-- An HTTP response as seen by the sitemap code. -/
structure ApiResp (α : Type) where
  ok : Bool
  json : α
deriving DecidableEq, Repr

/-- Deterministic outcomes for every request the discoverer can make. -/
structure ApiWorld where
  /-- `GET /api/v1/@apostrophecms/page?all=1&flat=1&published=1` -/
  pages : Except Unit (ApiResp (List (Option String)))
  /-- `GET /api/v1/` (probe of the API root) -/
  rootIndex : Except Unit (ApiResp (Option (List String)))
  /-- `GET /api/v1/<type>?perPage=1` (piece-endpoint probe) -/
  pieceProbe : String → Except Unit (ApiResp (Option (List (Option String))))
  /-- `GET /api/v1/<type>?page=<n>&perPage=100` (piece listing) -/
  pieceList : String → Nat → Except Unit (ApiResp (Option (List (Option String))))

/-- Accumulator pass of `dedupFirst`. -/
def dedupFirstGo (seen : List String) : List String → List String
  | [] => []
  | x :: xs => if seen.contains x then dedupFirstGo seen xs else x :: dedupFirstGo (seen ++ [x]) xs

/-- `Array.from(new Set(l))`: keeps the first occurrence of each element. -/
def dedupFirst (l : List String) : List String := dedupFirstGo [] l

/-- Default `Array.prototype.sort` comparison: lexicographic on UTF-16 code
units (equal to code points for the ASCII URLs at hand). -/
def codeLt (a b : String) : Bool :=
  lexLt (a.data.map Char.toNat) (b.data.map Char.toNat)

/-- Insertion step for the default string sort. -/
def insertCode (x : String) : List String → List String
  | [] => [x]
  | y :: ys => if codeLt x y then x :: y :: ys else y :: insertCode x ys

/-- `urls.sort()` with the default comparator. -/
def sortStrings (l : List String) : List String := l.foldr insertCode []

/-- Embedding of `fetchAllPages` (sitemap.js lines 41–76): a thrown fetch or
a non-ok response raises (`throw new Error`), otherwise every result whose
`_url` is a string is normalized; the homepage is inserted when missing
(locale variant checks `/<locale>/` first); the list is deduplicated and
sorted. -/
def fetchAllPages (w : ApiWorld) (locale : Option String) : Except Unit (List String) :=
  match w.pages with
  | .error _ => .error ()
  | .ok r =>
    if r.ok = false then .error ()
    else
      let urls := r.json.filterMap (fun u? => u?.map normalizeUrl)
      let urls :=
        match locale with
        | some loc =>
          if urls.contains ("/" ++ loc ++ "/") = false ∧ urls.contains "/" = false
          then urls ++ ["/"] else urls
        | none => if urls.contains "/" = false then urls ++ ["/"] else urls
      .ok (sortStrings (dedupFirst urls))

/-- Embedding of `probeCandidates` (sitemap.js lines 78–96): any throw or
non-ok response yields `[]`; otherwise the keys of the object are kept minus
the `@apostrophecms/` namespace and the `search`/`page` endpoints.  (JSON
values are never functions, so the `typeof` filter keeps every key.) -/
def probeCandidates (w : ApiWorld) : List String :=
  match w.rootIndex with
  | .error _ => []
  | .ok r =>
    if r.ok = false then []
    else
      match r.json with
      | none => []
      | some keys =>
        (keys.filter fun k =>
          ¬ ("@apostrophecms/".data.isPrefixOf k.data) ∧ k ≠ "search" ∧ k ≠ "page")

/-- Embedding of `isPieceEndpoint` (sitemap.js lines 98–123): throws and
non-ok responses are caught to `false`; a well-formed `results` array
qualifies when empty or when its first item has a truthy `_url`. -/
def isPieceEndpoint (w : ApiWorld) (t : String) : Bool :=
  match w.pieceProbe t with
  | .error _ => false
  | .ok r =>
    if r.ok = false then false
    else
      match r.json with
      | none => false
      | some [] => true
      | some (first :: _) =>
        match first with
        | some u => u ≠ ""
        | none => false

/-- Embedding of `discoverPieceTypes` (sitemap.js lines 125–146): qualify the
probed candidates, then try the fixed heuristic shortlist, adding entries not
already present that qualify; deduplicate. -/
def discoverPieceTypes (w : ApiWorld) : List String :=
  let discovered := (probeCandidates w).filter (isPieceEndpoint w)
  let all := ["article", "news", "product", "blog", "event"].foldl
    (fun acc h => if acc.contains h then acc else if isPieceEndpoint w h then acc ++ [h] else acc)
    discovered
  dedupFirst all

/-- Embedding of `fetchAllPieces` (sitemap.js lines 148–177).  A thrown
fetch propagates out of the `for (;;)` loop — `fetchAllPieces` has no
`try`/`catch` — while a non-ok response merely breaks, returning the URLs
collected so far.  A page shorter than `perPage = 100` ends the pagination.
`fuel` bounds the number of page requests; the source loops unboundedly, so
theorems only use worlds that terminate within the supplied fuel. -/
def fetchAllPieces (w : ApiWorld) (t : String) : Nat → Nat → List String → Except Unit (List String)
  | 0, _, acc => .ok acc
  | fuel + 1, page, acc =>
    match w.pieceList t page with
    | .error _ => .error ()
    | .ok r =>
      if r.ok = false then .ok acc
      else
        let results := r.json.getD []
        let acc := acc ++ results.filterMap fun u? =>
          match u? with
          | some u => if u = "" then none else some (normalizeUrl u)
          | none => none
        if results.length < 100 then .ok acc
        else fetchAllPieces w t fuel (page + 1) acc

/-- Embedding of `generateSitemap` (sitemap.js lines 179–208): a missing
`aposKey` throws; the page listing is fetched (its failure propagates);
piece types come from the explicit option or auto-discovery; each type's
listing is fetched in turn (a thrown piece fetch propagates); the union is
deduplicated and sorted. -/
def generateSitemap (w : ApiWorld) (aposKey : Bool) (pieceTypes : Option (List String))
    (locale : Option String) (fuel : Nat) : Except Unit (List String) :=
  if aposKey = false then .error ()
  else do
    let pageUrls ← fetchAllPages w locale
    let types := match pieceTypes with
      | some ts => ts
      | none => discoverPieceTypes w
    let pieceUrls ← types.foldlM
      (fun acc t => do
        let us ← fetchAllPieces w t fuel 1 []
        pure (acc ++ us))
      ([] : List String)
    pure (sortStrings (dedupFirst (pageUrls ++ pieceUrls)))

/-! ### URL rewriter (src/processors/url-rewriter.js)

`makeUrlsRelative` walks every `a[href]` and `form[action]` element and
rewrites the attribute value; the DOM traversal itself only maps the
per-value transform over the document, so the embedding works on the list of
attribute values. -/

/-- Model of `new URL(previewUrl + rest).pathname + search + hash` where
`previewUrl` is `http://<host>:<port>` (no trailing slash).  A `rest`
beginning with `/`, `?` or `#` keeps the preview origin; a digit
continuation extends the port number until a delimiter; anything else makes
`new URL` throw (`none`), which the source catches by leaving the value
alone.  Modelled domain: no backslashes or userinfo in `rest`. -/
def jsUrlTail : List Char → Option (List Char)
  | [] => some ['/']
  | c :: rest =>
    if c = '/' then some (c :: rest)
    else if c = '?' ∨ c = '#' then some ('/' :: c :: rest)
    else if c.isDigit then
      match (c :: rest).dropWhile Char.isDigit with
      | [] => some ['/']
      | d :: ds =>
        if d = '/' then some (d :: ds)
        else if d = '?' ∨ d = '#' then some ('/' :: d :: ds)
        else none
    else none

/-- Embedding of the per-attribute body of `makeUrlsRelative` (url-rewriter.js
lines 40–79).  A value starting with the preview URL is replaced by its
path+search+hash (a URL parse failure is caught and skips the element); then
any value containing `?` — whatever its origin — has its query string
converted through `queryParamsToPath`, re-appending a fragment found inside
the search part. -/
def rewriteUrl (previewUrl u : String) : String :=
  if previewUrl.data.isPrefixOf u.data then
    match jsUrlTail (u.data.drop previewUrl.data.length) with
    | none => u
    | some tail => rewriteQuery (String.mk tail)
  else rewriteQuery u
where
  /-- The `finalUrl.includes('?')` branch. -/
  rewriteQuery (finalUrl : String) : String :=
    if finalUrl.data.contains '?' then
      let pieces := splitOnChar '?' finalUrl.data
      let pathname := pieces.headD []
      let search := (pieces.drop 1).headD []
      let split := splitFirstChar '#' search
      let searchWithoutHash := split.1
      let hash := match split.2 with
        | none => []
        | some h => '#' :: h
      let staticPath := queryParamsToPath (String.mk (pathname ++ '?' :: searchWithoutHash))
      String.mk (staticPath.data ++ hash)
    else finalUrl

/-- Embedding of `makeUrlsRelative` over the document's `href`/`action`
attribute values. -/
def makeUrlsRelative (previewUrl : String) (attrValues : List String) : List String :=
  attrValues.map (rewriteUrl previewUrl)

/-! ### Video widget processor (src/processors/video-widgets.js)

A `<video-widget>` element carries an optional `url` and `title` attribute.
The oEmbed backend is abstracted as a deterministic oracle from the video
URL to either oEmbed data or a failure (any throw inside `fetchOembedData`,
network or JSON).  The jsdom iframe attribute normalization inside
`createResponsiveVideoHtml` is abstracted to passing the oEmbed html
through; no claim depends on it. -/

structure VideoWidget where
  url : Option String
  title : Option String
deriving DecidableEq, Repr

structure Oembed where
  html : String
  width : Option Nat
  height : Option Nat
deriving DecidableEq, Repr

/-- Embedding of `fetchOembedData`: the whole body is wrapped in
`try`/`catch`, so any failure becomes `null`. -/
def fetchOembedData (oracle : String → Except String Oembed) (videoUrl : String) :
    Option Oembed :=
  match oracle videoUrl with
  | .ok d => some d
  | .error _ => none

/-- The placeholder `createResponsiveVideoHtml` renders when the oEmbed data
is missing or has no html. -/
def unavailableHtml : String :=
  "<div class=\"video-error\" style=\"padding: 2rem; background: #f5f5f5; border: 1px solid #ddd; border-radius: 4px; text-align: center; color: #666;\"><p>Video unavailable</p></div>"

/-- The placeholder rendered for a widget with no `url` attribute. -/
def noUrlHtml : String :=
  "<div class=\"video-error\">No video URL provided</div>"

/-- Fractional decimal digits of `num/den`, up to `k` places (terminating
rendering of the exact ratio; JS shortest-double formatting agrees on the
terminating decimals that occur here). -/
def decimalDigits : Nat → Nat → Nat → List Char
  | _, _, 0 => []
  | num, den, k + 1 =>
    if num = 0 ∨ den = 0 then []
    else
      let num := num * 10
      Char.ofNat ('0'.toNat + num / den) :: decimalDigits (num % den) den k

/-- Decimal rendering of `num/den` percent values. -/
def ratioDecimal (num den : Nat) : String :=
  if den = 0 then "0"
  else
    toString (num / den) ++
      (if num % den = 0 then "" else "." ++ String.mk (decimalDigits (num % den) den 10))

/-- `(height / width) * 100`, with the 16:9 default when either dimension is
missing or zero (`0` is falsy in the source's `width && height` guard). -/
def aspectPercent (w h : Option Nat) : String :=
  match w, h with
  | some w, some h => if w = 0 ∨ h = 0 then "56.25" else ratioDecimal (h * 100) w
  | _, _ => "56.25"

/-- The responsive wrapper markup of `createResponsiveVideoHtml` (after its
`.trim()`). -/
def videoWrapperHtml (embedHtml aspect : String) : String :=
  "<div class=\"video-wrapper\" style=\"position: relative; width: 100%; margin-bottom: 1.5rem;\">\n  <div class=\"video-container\" style=\"position: relative; width: 100%; height: 0; padding-bottom: " ++
    aspect ++
    "%; overflow: hidden;\">\n    " ++
    embedHtml ++
    "\n  </div>\n</div>\n<style>\n  .video-container iframe \x7b\n    position: absolute !important;\n    top: 0 !important;\n    left: 0 !important;\n    width: 100% !important;\n    height: 100% !important;\n    border: 0 !important;\n  \x7d\n</style>"

/-- Embedding of `createResponsiveVideoHtml`: missing data or empty html
(falsy `oembedData.html`) renders the visible placeholder; otherwise the
responsive wrapper. -/
def createResponsiveVideoHtml (d : Option Oembed) (_title : String) : String :=
  match d with
  | none => unavailableHtml
  | some d =>
    if d.html = "" then unavailableHtml
    else videoWrapperHtml d.html (aspectPercent d.width d.height)

/-- Replacement markup for one widget, as computed by the loop body of
`processVideoWidgets`: a widget without `url` gets the error div, otherwise
the oEmbed data (or `null` on failure) is rendered. -/
def renderWidget (oracle : String → Except String Oembed) (w : VideoWidget) : String :=
  match w.url with
  | none => noUrlHtml
  | some u => createResponsiveVideoHtml (fetchOembedData oracle u) (w.title.getD "Video content")

/-- Embedding of `processVideoWidgets` over the page's widget elements: each
is replaced in document order; no path raises. -/
def processVideoWidgets (widgets : List VideoWidget) (oracle : String → Except String Oembed) :
    List String :=
  match widgets with
  | [] => []
  | w :: ws => renderWidget oracle w :: processVideoWidgets ws oracle

/-- Embedding of the video-widget step of `exportStatic`'s page handler
(lines 284–289): `videoWidgetCount` is the number of `<video-widget`
occurrences (the widget elements of the page); when positive the page HTML
is transformed and the run counter increases by that count — encountered
widgets, not successfully rendered ones. -/
def pageVideoStep (widgets : List VideoWidget) (oracle : String → Except String Oembed)
    (counter : Nat) : List String × Nat :=
  if widgets.length > 0 then (processVideoWidgets widgets oracle, counter + widgets.length)
  else ([], counter)

/-! ### The crawl frontier of `exportStatic` (lines 257–303)

`exportStatic` keeps a raw-string queue (`urlQueue`) and a raw-string
processed set (`processedUrls`): membership checks use exact string
identity, not canonical identity.  The page fetch and the link extraction
are abstracted: `g u` is the list of same-origin raw paths
(`url.pathname + url.search`) that `extractInternalLinks` returns for the
page at `u`, and every fetch is assumed to succeed (per-URL failure handling
is a separate concern).  Node's single-threaded event loop together with the
batch barrier (`await mapLimit(batch, ...)` completes a whole batch before
the next one starts) makes the processed-set content independent of the
worker count, so the loop is embedded sequentially: pop the head, skip it if
already processed (the batch filter / in-handler re-check), otherwise fetch
it, append its links that are in neither the processed set nor the queue,
and mark it processed.  `fuel` bounds the number of loop steps. -/

/-- The link re-enqueue loop of the page handler: push each found link
unless it is already processed or already queued. -/
def enqueueLinks (links queue processed : List String) : List String :=
  links.foldl (fun q l => if processed.contains l || q.contains l then q else q ++ [l]) queue

/-- The frontier loop: returns the final `(urlQueue, processedUrls)`, the
second component doubling as the fetch trace (one fetch per append, in
order). -/
def crawlRun (g : String → List String) : Nat → List String → List String →
    List String × List String
  | 0, queue, proc => (queue, proc)
  | _fuel + 1, [], proc => ([], proc)
  | fuel + 1, u :: qs, proc =>
    if proc.contains u then crawlRun g fuel qs proc
    else crawlRun g fuel (enqueueLinks (g u) qs proc) (proc ++ [u])

/-- One-step unfolding of the loop on a non-empty queue. -/
theorem crawlRun_cons (g : String → List String) (fuel : Nat) (u : String)
    (qs proc : List String) :
    crawlRun g (fuel + 1) (u :: qs) proc =
      if proc.contains u then crawlRun g fuel qs proc
      else crawlRun g fuel (enqueueLinks (g u) qs proc) (proc ++ [u]) := rfl

/-! ### Helper lemmas: retry loop and `mapLimit` -/

/-- The retry loop performs at most `remaining + 1` further attempts. -/
theorem fetchRetryGo_attempts_le (oracle : Nat → Outcome) :
    ∀ (r a : Nat) (e : FetchErr), (fetchRetryGo oracle a r e).2 ≤ a + r + 1 := by
  intro r
  induction r with
  | zero =>
    intro a e
    unfold fetchRetryGo
    cases oracle a with
    | resp s => dsimp only; split <;> simp
    | netErr => simp
  | succ r ih =>
    intro a e
    unfold fetchRetryGo
    cases oracle a with
    | resp s =>
      dsimp only
      split
      · simp
      · have := ih (a + 1) (.http s)
        omega
    | netErr =>
      have := ih (a + 1) .network
      dsimp only
      omega

/-- The error entry a given item contributes, if its worker call fails. -/
def errOf (worker : α → Except String Unit) (it : α) : Option (α × String) :=
  match worker it with
  | .error m => some (it, m)
  | .ok _ => none

theorem mapLimitGo_trace (worker : α → Except String Unit) :
    ∀ (items : List α) (acc : MapResults α) (trace : List α),
      (mapLimitGo worker items acc trace).2 = trace ++ items := by
  intro items
  induction items with
  | nil => intro acc trace; simp [mapLimitGo]
  | cons it rest ih =>
    intro acc trace
    unfold mapLimitGo
    cases worker it <;> simp [ih]

theorem mapLimitGo_counts (worker : α → Except String Unit) :
    ∀ (items : List α) (acc : MapResults α) (trace : List α),
      (mapLimitGo worker items acc trace).1.success + (mapLimitGo worker items acc trace).1.failed =
        acc.success + acc.failed + items.length := by
  intro items
  induction items with
  | nil => intro acc trace; simp [mapLimitGo]
  | cons it rest ih =>
    intro acc trace
    unfold mapLimitGo
    cases worker it
    · rw [ih]; dsimp; omega
    · rw [ih]; dsimp; omega

theorem mapLimitGo_errors (worker : α → Except String Unit) :
    ∀ (items : List α) (acc : MapResults α) (trace : List α),
      (mapLimitGo worker items acc trace).1.errors =
        acc.errors ++ items.filterMap (errOf worker) := by
  intro items
  induction items with
  | nil => intro acc trace; simp [mapLimitGo]
  | cons it rest ih =>
    intro acc trace
    unfold mapLimitGo
    cases h : worker it
    · rw [ih]; simp [List.filterMap_cons, errOf, h]
    · rw [ih]; simp [List.filterMap_cons, errOf, h]

theorem mapLimitGo_failed (worker : α → Except String Unit) :
    ∀ (items : List α) (acc : MapResults α) (trace : List α),
      (mapLimitGo worker items acc trace).1.failed =
        acc.failed + (items.filterMap (errOf worker)).length := by
  intro items
  induction items with
  | nil => intro acc trace; simp [mapLimitGo]
  | cons it rest ih =>
    intro acc trace
    unfold mapLimitGo
    cases h : worker it
    · rw [ih]; simp [List.filterMap_cons, errOf, h]; omega
    · rw [ih]; simp [List.filterMap_cons, errOf, h]

/-! ### Helper lemmas: video widgets -/

theorem processVideoWidgets_length (oracle : String → Except String Oembed) :
    ∀ widgets : List VideoWidget,
      (processVideoWidgets widgets oracle).length = widgets.length := by
  intro widgets
  induction widgets with
  | nil => rfl
  | cons w ws ih => simp [processVideoWidgets, ih]

/-! ## Claim theorems -/

/-- The oracle of a server that answers HTTP 404 to every attempt. -/
def always404 : Nat → Outcome := fun _ => .resp 404

/-- **C2** (code_bug).  The claim — and the source's own comment
`// Don't retry 4xx errors (except 429 rate limit)` — say a 404 fails
immediately after exactly one attempt.  The `throw` for 4xx statuses sits
inside the `try` block, so the `catch (error)` of the same iteration
swallows it and the loop retries anyway: with `retries = 3` a persistent 404
performs 4 attempts, not 1, before failing with `HTTP 404`. -/
theorem c2_fetch404_divergence :
    fetchWithRetry always404 3 = (.error (.http 404), 4) ∧ (4 : Nat) ≠ 1 :=
  ⟨rfl, by decide⟩

/-- An attempt schedule that fails retryably twice (HTTP 500, then a network
error) and succeeds with HTTP 200 from the third attempt on. -/
def flakyThenOk : Nat → Outcome := fun n =>
  if n = 0 then .resp 500 else if n = 1 then .netErr else .resp 200

/-- **C3** (confirmed).  `fetchWithRetry` performs at most `retries + 1`
attempts for every oracle, and with `retries = 3` a fetch whose first two
attempts fail retryably and whose third attempt returns 2xx yields that
success after exactly 3 attempts. -/
theorem c3_retry_budget :
    (∀ (oracle : Nat → Outcome) (retries : Nat),
      (fetchWithRetry oracle retries).2 ≤ retries + 1) ∧
    fetchWithRetry flakyThenOk 3 = (.ok 200, 3) :=
  ⟨fun oracle retries => by
      simpa [fetchWithRetry] using fetchRetryGo_attempts_le oracle retries 0 .network,
    rfl⟩

/-- **C10** (confirmed).  For every item list, every `limit ≥ 1` and every
worker, `mapLimit` invokes the worker exactly once per item (the invocation
trace equals the item list), `success + failed` equals the number of items,
and `errors` holds exactly one `{item, error}` entry per failed item. -/
theorem c10_mapLimit_counts {α : Type} (items : List α) (limit : Nat)
    (worker : α → Except String Unit) (hlimit : 1 ≤ limit) :
    (mapLimit items limit worker).2 = items ∧
    (mapLimit items limit worker).1.success + (mapLimit items limit worker).1.failed =
      items.length ∧
    (mapLimit items limit worker).1.errors = items.filterMap (errOf worker) ∧
    (mapLimit items limit worker).1.errors.length = (mapLimit items limit worker).1.failed := by
  have hne : limit ≠ 0 := by omega
  have h1 := mapLimitGo_trace worker items ⟨0, 0, []⟩ []
  have h2 := mapLimitGo_counts worker items ⟨0, 0, []⟩ []
  have h3 := mapLimitGo_errors worker items ⟨0, 0, []⟩ []
  have h4 := mapLimitGo_failed worker items ⟨0, 0, []⟩ []
  simp only [mapLimit, hne, if_false]
  refine ⟨by simpa using h1, by simpa using h2, by simpa using h3, ?_⟩
  rw [h3, h4]
  simp

def exItems : List Nat := [1, 2, 3]

def exWorker : Nat → Except String Unit := fun n => if n = 2 then .error "boom" else .ok ()

/-- Witness for C10 at a concrete run: three items, limit 2, one failing
item. -/
theorem c10_witness :
    (1 ≤ 2) ∧
    ((mapLimit exItems 2 exWorker).2 = exItems ∧
      (mapLimit exItems 2 exWorker).1.success + (mapLimit exItems 2 exWorker).1.failed =
        exItems.length ∧
      (mapLimit exItems 2 exWorker).1.errors = exItems.filterMap (errOf exWorker) ∧
      (mapLimit exItems 2 exWorker).1.errors.length = (mapLimit exItems 2 exWorker).1.failed) :=
  ⟨by decide, c10_mapLimit_counts exItems 2 exWorker (by decide)⟩

set_option maxRecDepth 8192 in
/-- **C9** (confirmed).  The run counter grows by the number of widget
elements encountered on the page — independent of the oracle, hence also
when every oEmbed fetch fails; processing always yields one replacement per
widget (no exception escapes); and a widget whose oEmbed fetch fails is
replaced by the visible `Video unavailable` placeholder. -/
theorem c9_video_degrade :
    ∀ (widgets : List VideoWidget) (oracle : String → Except String Oembed) (counter : Nat),
      (pageVideoStep widgets oracle counter).2 = counter + widgets.length ∧
      (processVideoWidgets widgets oracle).length = widgets.length ∧
      ("Video unavailable".data <:+: unavailableHtml.data) ∧
      (∀ w ∈ widgets, ∀ u, w.url = some u → ∀ e, oracle u = .error e →
        renderWidget oracle w = unavailableHtml) := by
  intro widgets oracle counter
  refine ⟨?_, processVideoWidgets_length oracle widgets, by decide, ?_⟩
  · unfold pageVideoStep
    split
    · rfl
    · simp_all
  · intro w _ u hu e he
    simp [renderWidget, hu, fetchOembedData, he, createResponsiveVideoHtml]

def exWidget : VideoWidget := ⟨some "https://youtu.be/x", none⟩

def failOracle : String → Except String Oembed := fun _ => .error "fetch failed"

/-- Witness for C9: one widget whose oEmbed endpoint is unreachable. -/
theorem c9_witness :
    (pageVideoStep [exWidget] failOracle 0).2 = 0 + 1 ∧
    renderWidget failOracle exWidget = unavailableHtml :=
  ⟨by simpa using (c9_video_degrade [exWidget] failOracle 0).1,
    (c9_video_degrade [exWidget] failOracle 0).2.2.2 exWidget (by simp)
      "https://youtu.be/x" rfl "fetch failed" rfl⟩

/-- **C8** counterexample (corrected).  An anchor pointing at an external,
non-preview origin is *not* left unchanged when its URL carries a query
string: `makeUrlsRelative` pushes every `?`-containing value through
`queryParamsToPath`, so `https://example.com/search?q=1` is mangled into
`https://example.com/search/q-1/`. -/
theorem c8_external_query_rewritten :
    makeUrlsRelative "http://127.0.0.1:4321" ["https://example.com/search?q=1"] =
      ["https://example.com/search/q-1/"] ∧
    ("https://example.com/search/q-1/" : String) ≠ "https://example.com/search?q=1" :=
  ⟨rfl, by decide⟩

/-- **C8** amended.  Values not starting with the preview URL and containing
no `?` are left unchanged; preview-host URLs are rewritten to relative
canonical paths (query converted to path segments); but any value containing
`?`, external ones included, is query-rewritten. -/
theorem c8_amended_rewriter :
    (∀ previewUrl u : String, previewUrl.data.isPrefixOf u.data = false →
      u.data.contains '?' = false → rewriteUrl previewUrl u = u) ∧
    rewriteUrl "http://127.0.0.1:4321" "http://127.0.0.1:4321/blog?page=2" = "/blog/page-2/" := by
  refine ⟨?_, rfl⟩
  intro previewUrl u h1 h2
  unfold rewriteUrl
  rw [h1]
  simp only [Bool.false_eq_true, if_false]
  unfold rewriteUrl.rewriteQuery
  rw [h2]
  simp

/-- Witness for the amended C8 at a concrete external query-free URL. -/
theorem c8_witness :
    ("http://127.0.0.1:4321" : String).data.isPrefixOf
        ("https://other.org/plain" : String).data = false ∧
    ("https://other.org/plain" : String).data.contains '?' = false ∧
    rewriteUrl "http://127.0.0.1:4321" "https://other.org/plain" = "https://other.org/plain" :=
  ⟨by decide, by decide,
    c8_amended_rewriter.1 "http://127.0.0.1:4321" "https://other.org/plain"
      (by decide) (by decide)⟩

/-! ### Helper lemmas: the entry sort of `queryParamsToPath` -/

theorem lexLt_irrefl : ∀ l : List Nat, lexLt l l = false := by
  intro l
  induction l with
  | nil => rfl
  | cons a as ih => simp [lexLt, ih]

theorem lexLt_asymm : ∀ {l m : List Nat}, lexLt l m = true → lexLt m l = false := by
  intro l
  induction l with
  | nil =>
    intro m h
    cases m with
    | nil => simp [lexLt] at h
    | cons b bs => simp [lexLt]
  | cons a as ih =>
    intro m h
    cases m with
    | nil => simp [lexLt] at h
    | cons b bs =>
      simp only [lexLt, Bool.or_eq_true, Bool.and_eq_true, decide_eq_true_eq] at h
      simp only [lexLt, Bool.or_eq_false_iff, Bool.and_eq_false_iff, decide_eq_false_iff_not]
      rcases h with h | ⟨hab, h2⟩
      · exact ⟨by omega, Or.inl (by omega)⟩
      · subst hab
        exact ⟨by omega, Or.inr (ih h2)⟩

theorem lexLt_trans : ∀ {l m k : List Nat},
    lexLt l m = true → lexLt m k = true → lexLt l k = true := by
  intro l
  induction l with
  | nil =>
    intro m k h1 h2
    cases m with
    | nil => simp [lexLt] at h1
    | cons b bs =>
      cases k with
      | nil => simp [lexLt] at h2
      | cons c cs => simp [lexLt]
  | cons a as ih =>
    intro m k h1 h2
    cases m with
    | nil => simp [lexLt] at h1
    | cons b bs =>
      cases k with
      | nil => simp [lexLt] at h2
      | cons c cs =>
        simp only [lexLt, Bool.or_eq_true, Bool.and_eq_true, decide_eq_true_eq] at h1 h2 ⊢
        rcases h1 with h1 | ⟨hab, h1⟩ <;> rcases h2 with h2 | ⟨hbc, h2⟩
        · exact Or.inl (by omega)
        · exact Or.inl (by omega)
        · exact Or.inl (by omega)
        · exact Or.inr ⟨by omega, ih h1 h2⟩

theorem localeLt_asymm {a b : List Char} (h : localeLt a b = true) : localeLt b a = false := by
  simp only [localeLt, Bool.or_eq_true, Bool.and_eq_true, decide_eq_true_eq] at h
  simp only [localeLt, Bool.or_eq_false_iff, Bool.and_eq_false_iff, decide_eq_false_iff_not]
  rcases h with h | ⟨hp, hc⟩
  · refine ⟨lexLt_asymm h, Or.inl ?_⟩
    intro he
    rw [he] at h
    simp [lexLt_irrefl] at h
  · rw [hp]
    exact ⟨lexLt_irrefl _, Or.inr (lexLt_asymm hc)⟩

theorem localeLt_trans {a b c : List Char}
    (h1 : localeLt a b = true) (h2 : localeLt b c = true) : localeLt a c = true := by
  simp only [localeLt, Bool.or_eq_true, Bool.and_eq_true, decide_eq_true_eq] at h1 h2 ⊢
  rcases h1 with h1 | ⟨hp1, hc1⟩ <;> rcases h2 with h2 | ⟨hp2, hc2⟩
  · exact Or.inl (lexLt_trans h1 h2)
  · exact Or.inl (hp2 ▸ h1)
  · exact Or.inl (hp1 ▸ h2)
  · exact Or.inr ⟨hp1.trans hp2, lexLt_trans hc1 hc2⟩

/-- Ascending key order on query parameter entries: the later key does not
compare strictly below the earlier one. -/
def entryLe (p q : List Char × List Char) : Prop := localeLt q.1 p.1 = false

theorem mem_insertEntry {x z : List Char × List Char} :
    ∀ {l}, z ∈ insertEntry x l → z = x ∨ z ∈ l := by
  intro l
  induction l with
  | nil =>
    intro h
    simp only [insertEntry, List.mem_singleton] at h
    exact Or.inl h
  | cons y ys ih =>
    intro h
    unfold insertEntry at h
    split at h
    · rcases List.mem_cons.mp h with h | h
      · exact Or.inl h
      · exact Or.inr h
    · rcases List.mem_cons.mp h with h | h
      · exact Or.inr (h ▸ List.mem_cons_self _ _)
      · rcases ih h with h | h
        · exact Or.inl h
        · exact Or.inr (List.mem_cons_of_mem _ h)

theorem pairwise_insertEntry {x : List Char × List Char} :
    ∀ {l}, l.Pairwise entryLe → (insertEntry x l).Pairwise entryLe := by
  intro l
  induction l with
  | nil => intro _; simp [insertEntry]
  | cons y ys ih =>
    intro h
    rcases List.pairwise_cons.mp h with ⟨hy, hys⟩
    unfold insertEntry
    split
    case isTrue hlt =>
      refine List.pairwise_cons.mpr ⟨?_, h⟩
      intro z hz
      rcases List.mem_cons.mp hz with hz | hz
      · exact hz ▸ localeLt_asymm hlt
      · have hyz := hy z hz
        unfold entryLe at hyz ⊢
        by_contra hzx
        rw [Bool.not_eq_false] at hzx
        rw [localeLt_trans hzx hlt] at hyz
        simp at hyz
    case isFalse hnlt =>
      refine List.pairwise_cons.mpr ⟨?_, ih hys⟩
      intro z hz
      rcases mem_insertEntry hz with hz | hz
      · simpa [entryLe, hz] using hnlt
      · exact hy z hz

theorem pairwise_sortEntries : ∀ l : List (List Char × List Char),
    (sortEntries l).Pairwise entryLe := by
  intro l
  induction l with
  | nil => simp [sortEntries]
  | cons x xs ih => exact pairwise_insertEntry ih

theorem perm_insertEntry (x : List Char × List Char) :
    ∀ l, List.Perm (insertEntry x l) (x :: l) := by
  intro l
  induction l with
  | nil => simp [insertEntry]
  | cons y ys ih =>
    unfold insertEntry
    split
    · exact List.Perm.refl _
    · exact (ih.cons y).trans (List.Perm.swap x y ys)

theorem perm_sortEntries : ∀ l : List (List Char × List Char), List.Perm (sortEntries l) l := by
  intro l
  induction l with
  | nil => simp [sortEntries]
  | cons x xs ih => exact (perm_insertEntry x (sortEntries xs)).trans (ih.cons x)

theorem length_filterMap_parts : ∀ l : List (List Char × List Char),
    (l.filterMap fun e => if e.2 = [] then none else some (e.1 ++ '-' :: e.2)).length =
      (l.filter fun e => !e.2.isEmpty).length := by
  intro l
  induction l with
  | nil => rfl
  | cons e es ih =>
    by_cases h : e.2 = []
    · simp [List.filterMap_cons, List.filter_cons, h, ih]
    · simp [List.filterMap_cons, List.filter_cons, h, ih, List.isEmpty_iff]

theorem canonicalParts_length (search : List Char) :
    (canonicalParts search).length =
      ((searchParamsEntries search).filter fun e => !e.2.isEmpty).length := by
  unfold canonicalParts canonicalEntries
  rw [length_filterMap_parts]
  exact ((perm_sortEntries (searchParamsEntries search)).filter _).length_eq

/-! ### Helper lemmas: `queryParamsToPath` on query-free input, `normalizeUrl` -/

theorem contains_eq_decide_mem [BEq α] [LawfulBEq α] (l : List α) (a : α) :
    l.contains a = decide (a ∈ l) := by
  induction l with
  | nil => rfl
  | cons x xs ih => simp [List.contains_cons]

theorem splitOnChar_eq_of_not_mem {sep : Char} :
    ∀ {cs : List Char}, sep ∉ cs → splitOnChar sep cs = [cs] := by
  intro cs
  induction cs with
  | nil => intro _; rfl
  | cons c cs ih =>
    intro h
    have hc : c ≠ sep := fun he => h (he ▸ List.mem_cons_self _ _)
    have hcs : sep ∉ cs := fun hm => h (List.mem_cons_of_mem _ hm)
    unfold splitOnChar
    rw [if_neg hc, ih hcs]

/-- A string without `?` canonicalizes to itself. -/
theorem queryParamsToPath_no_query {s : String} (h : s.data.contains '?' = false) :
    queryParamsToPath s = s := by
  have hmem : '?' ∉ s.data := by
    rw [contains_eq_decide_mem] at h
    simpa using h
  unfold queryParamsToPath
  rw [splitOnChar_eq_of_not_mem hmem]

theorem mem_urlPathnameRaw {c : Char} {cs : List Char} (h : c ∈ urlPathnameRaw cs) :
    (c ≠ '?' ∧ c ≠ '#') ∨ c = '/' := by
  unfold urlPathnameRaw at h
  dsimp only at h
  split at h
  · split at h
    · have hp := List.mem_takeWhile_imp h
      simp only [decide_eq_true_eq] at hp
      exact Or.inl hp
    · simp at h
      exact Or.inr h
  · have hp := List.mem_takeWhile_imp h
    simp only [decide_eq_true_eq] at hp
    exact Or.inl hp

theorem head?_ensureLeadingSlash (p : List Char) :
    (ensureLeadingSlash p).head? = some '/' := by
  unfold ensureLeadingSlash
  split
  · assumption
  · rfl

theorem mem_ensureLeadingSlash {c : Char} {p : List Char}
    (h : c ∈ ensureLeadingSlash p) : c = '/' ∨ c ∈ p := by
  unfold ensureLeadingSlash at h
  split at h
  · exact Or.inr h
  · rcases List.mem_cons.mp h with h | h
    · exact Or.inl h
    · exact Or.inr h

theorem mem_addTrailingSlash {c : Char} {p : List Char}
    (h : c ∈ addTrailingSlash p) : c = '/' ∨ c ∈ p := by
  unfold addTrailingSlash at h
  split at h
  · split at h
    · exact Or.inr h
    · rcases List.mem_append.mp h with h | h
      · exact Or.inr h
      · simp at h
        exact Or.inl h
  · exact Or.inr h

theorem head?_addTrailingSlash {p : List Char} (hp : p ≠ []) :
    (addTrailingSlash p).head? = p.head? := by
  unfold addTrailingSlash
  split
  · split
    · rfl
    · exact List.head?_append_of_ne_nil _ hp
  · rfl

theorem getLast?_addTrailingSlash {p : List Char} (hdot : '.' ∉ p) :
    (addTrailingSlash p).getLast? = some '/' := by
  have hhtml : ".html".data.isSuffixOf p = false := by
    by_contra hns
    rw [Bool.not_eq_false] at hns
    have hsuf : ".html".data <:+ p := by
      rw [List.isSuffixOf_iff_suffix] at hns
      exact hns
    exact hdot (hsuf.subset (by decide))
  have hhtm : ".htm".data.isSuffixOf p = false := by
    by_contra hns
    rw [Bool.not_eq_false] at hns
    have hsuf : ".htm".data <:+ p := by
      rw [List.isSuffixOf_iff_suffix] at hns
      exact hns
    exact hdot (hsuf.subset (by decide))
  have hcont : p.contains '.' = false := by
    rw [contains_eq_decide_mem]
    simpa using hdot
  unfold addTrailingSlash
  rw [if_pos ⟨by rw [hhtml]; simp, by rw [hhtm]; simp, by rw [hcont]; simp⟩]
  split
  · assumption
  · exact List.getLast?_concat _

/-! #### C4, C5, C6 -/

/-- **C4** counterexample (corrected).  The sort comparator is
`localeCompare`, not byte order: with keys `B` and `a` the code sorts the
lowercase `a` first (ICU root collation), while byte order would put `B`
(0x42) before `a` (0x61), so the claim's byte-order rendering disagrees
with the code on `"/p?B=2&a=1"`. -/
theorem c4_byte_order_counterexample :
    queryParamsToPath "/p?B=2&a=1" = "/p/a-1-B-2/" ∧
    queryParamsToPathSpecByte "/p?B=2&a=1" = "/p/B-2-a-1/" ∧
    queryParamsToPath "/p?B=2&a=1" ≠ queryParamsToPathSpecByte "/p?B=2&a=1" :=
  ⟨rfl, rfl, by decide⟩

/-- **C4** amended.  Canonicalization sorts the query parameters by key
ascending in the `localeCompare` (ICU root) order — which agrees with byte
order on same-case alphanumeric keys but not on mixed-case ones — drops
every empty-valued parameter (the rendered part count equals the number of
non-empty-valued entries), renders the survivors as `key-value` segments
joined by `-` in a single trailing segment, and in particular
`canonicalize("/a?x=&y=1")` contains only the `y-1` segment. -/
theorem c4_amended_locale_sort :
    (∀ search : List Char, (canonicalEntries search).Pairwise entryLe) ∧
    (∀ search : List Char, (canonicalParts search).length =
      ((searchParamsEntries search).filter fun e => !e.2.isEmpty).length) ∧
    queryParamsToPath "/a?x=&y=1" = "/a/y-1/" ∧
    queryParamsToPath "/a/?b=1" = "/a/b-1/" :=
  ⟨fun s => pairwise_sortEntries (searchParamsEntries s),
    fun s => canonicalParts_length s, rfl, rfl⟩

/-- **C5** counterexample (corrected).  `normalizeUrl`'s parse branch skips
the trailing slash whenever the pathname contains a `.` anywhere — not only
when it ends in a file extension: `/v1.2/docs` has no trailing-extension
suffix (the `/\.[a-z0-9]+$/i` pattern does not match) yet is returned
without a trailing `/`. -/
theorem c5_dot_segment_counterexample :
    normalizeUrl "/v1.2/docs" = "/v1.2/docs" ∧
    isFilePattern (normalizeUrl "/v1.2/docs") = false ∧
    (normalizeUrl "/v1.2/docs").data.getLast? ≠ some '/' :=
  ⟨rfl, by decide, by decide⟩

/-- **C5** amended.  Every canonical path produced by `normalizeUrl` begins
with `/` and contains no hash fragment; the trailing `/` is guaranteed only
when the parsed pathname contains no `.` character at all (the parse branch
tests `includes(".")`, not a trailing-extension pattern). -/
theorem c5_amended_invariants (s : String) :
    (normalizeUrl s).data.head? = some '/' ∧
    (normalizeUrl s).data.contains '#' = false ∧
    ((urlPathnameRaw s.data).contains '.' = false →
      (normalizeUrl s).data.getLast? = some '/') := by
  refine ⟨?_, ?_, ?_⟩
  · show (addTrailingSlash (ensureLeadingSlash (urlPathnameRaw s.data))).head? = some '/'
    have hne : ensureLeadingSlash (urlPathnameRaw s.data) ≠ [] := by
      intro he
      have := head?_ensureLeadingSlash (urlPathnameRaw s.data)
      rw [he] at this
      simp at this
    rw [head?_addTrailingSlash hne, head?_ensureLeadingSlash]
  · show (addTrailingSlash (ensureLeadingSlash (urlPathnameRaw s.data))).contains '#' = false
    rw [contains_eq_decide_mem]
    simp only [decide_eq_false_iff_not]
    intro hmem
    rcases mem_addTrailingSlash hmem with h | h
    · exact absurd h (by decide)
    · rcases mem_ensureLeadingSlash h with h | h
      · exact absurd h (by decide)
      · rcases mem_urlPathnameRaw h with ⟨_, hne⟩ | h
        · exact hne rfl
        · exact absurd h (by decide)
  · intro hdot
    show (addTrailingSlash (ensureLeadingSlash (urlPathnameRaw s.data))).getLast? = some '/'
    apply getLast?_addTrailingSlash
    intro hmem
    have hd : '.' ∉ urlPathnameRaw s.data := by
      rw [contains_eq_decide_mem] at hdot
      simpa using hdot
    rcases mem_ensureLeadingSlash hmem with h | h
    · exact absurd h (by decide)
    · exact hd h

/-- Witness for the amended C5 at `"/about"`: dot-free pathname, all three
invariants. -/
theorem c5_witness :
    (urlPathnameRaw ("/about" : String).data).contains '.' = false ∧
    (normalizeUrl "/about").data.head? = some '/' ∧
    (normalizeUrl "/about").data.contains '#' = false ∧
    (normalizeUrl "/about").data.getLast? = some '/' :=
  ⟨by decide, (c5_amended_invariants "/about").1, (c5_amended_invariants "/about").2.1,
    (c5_amended_invariants "/about").2.2 (by decide)⟩

/-- **C6** counterexample (corrected).  A percent-encoded `?` in a parameter
value survives decoding into the rendered segment: `"/a?x=%3F"` canonicalizes
to `"/a/x-?/"`, whose second canonicalization splits at the decoded `?` and
yields `"/a/x-"` — so canonicalization is not idempotent on all inputs. -/
theorem c6_idempotence_counterexample :
    queryParamsToPath (queryParamsToPath "/a?x=%3F") ≠ queryParamsToPath "/a?x=%3F" := by
  decide

/-- **C6** amended.  Canonicalization is idempotent on every input whose
canonical form contains no `?` — i.e. unless a decoded parameter key or
value reintroduces a `?` (e.g. via `%3F`); query-free inputs and ordinary
queries all satisfy this. -/
theorem c6_amended_idempotent (x : String)
    (h : (queryParamsToPath x).data.contains '?' = false) :
    queryParamsToPath (queryParamsToPath x) = queryParamsToPath x :=
  queryParamsToPath_no_query h

/-- Witness for the amended C6 at `"/a?b=1"`. -/
theorem c6_witness :
    (queryParamsToPath ("/a?b=1" : String)).data.contains '?' = false ∧
    queryParamsToPath (queryParamsToPath "/a?b=1") = queryParamsToPath "/a?b=1" :=
  ⟨by decide, c6_amended_idempotent "/a?b=1" (by decide)⟩

/-! #### C7: sitemap failure semantics -/

/-- The page-listing fetch fails: either `fetchWithTimeout` throws or the
response is non-ok (both reach `throw new Error` in `fetchAllPages`). -/
def pagesListingFails (w : ApiWorld) : Prop :=
  w.pages = .error () ∨ ∃ r, w.pages = .ok r ∧ r.ok = false

/-- Pages succeed with one homepage; every piece request throws. -/
def wPieceThrow : ApiWorld where
  pages := .ok ⟨true, [some "/"]⟩
  rootIndex := .ok ⟨true, none⟩
  pieceProbe := fun _ => .error ()
  pieceList := fun _ _ => .error ()

/-- Pages succeed; piece type `a` answers non-ok, piece type `b` answers one
item. -/
def wPieceTruncate : ApiWorld where
  pages := .ok ⟨true, [some "/"]⟩
  rootIndex := .ok ⟨true, none⟩
  pieceProbe := fun _ => .error ()
  pieceList := fun t _ =>
    if t = "a" then .ok ⟨false, none⟩ else .ok ⟨true, some [some "/b1/"]⟩

/-- Pages succeed; the API-root probe and every piece probe throw. -/
def wProbeFail : ApiWorld where
  pages := .ok ⟨true, [some "/"]⟩
  rootIndex := .error ()
  pieceProbe := fun _ => .error ()
  pieceList := fun _ _ => .error ()

/-- The page listing itself throws. -/
def wPagesDown : ApiWorld where
  pages := .error ()
  rootIndex := .error ()
  pieceProbe := fun _ => .error ()
  pieceList := fun _ _ => .error ()

/-- **C7** counterexample (corrected).  A *thrown* per-piece-type listing
fetch is fatal: `fetchAllPieces` has no `try`/`catch`, so the exception
propagates out of `generateSitemap` even though the page listing succeeded —
discovery does not return the URLs of the remaining pages and types. -/
theorem c7_piece_throw_fatal :
    generateSitemap wPieceThrow true (some ["article"]) none 5 = .error () ∧
    fetchAllPages wPieceThrow none = .ok ["/"] :=
  ⟨rfl, rfl⟩

/-- **C7** amended.  A failed page listing (thrown or non-ok) is fatal to the
whole discovery call, for every world; a *non-ok response* to a piece
listing is non-fatal (that type is truncated and discovery returns the
rest); a thrown probe request is non-fatal (auto-discovery yields no types
and discovery returns the page URLs); but a piece listing fetch that throws
propagates and is fatal. -/
theorem c7_amended_failure_semantics :
    (∀ (w : ApiWorld) (key : Bool) (types : Option (List String))
        (locale : Option String) (fuel : Nat),
      pagesListingFails w → generateSitemap w key types locale fuel = .error ()) ∧
    generateSitemap wPieceTruncate true (some ["a", "b"]) none 5 = .ok ["/", "/b1/"] ∧
    generateSitemap wProbeFail true none none 5 = .ok ["/"] := by
  refine ⟨?_, rfl, rfl⟩
  intro w key types locale fuel hfail
  have hpages : fetchAllPages w locale = .error () := by
    unfold fetchAllPages
    rcases hfail with h | ⟨r, h, hok⟩
    · rw [h]
    · rw [h]
      simp [hok]
  unfold generateSitemap
  cases key
  · rfl
  · simp only [hpages, Bind.bind, Except.bind]
    rfl

/-- Witness for the amended C7: a world whose page listing throws. -/
theorem c7_witness :
    pagesListingFails wPagesDown ∧
    generateSitemap wPagesDown true none none 1 = .error () :=
  ⟨Or.inl rfl, c7_amended_failure_semantics.1 wPagesDown true none none 1 (Or.inl rfl)⟩

/-! ### Helper lemmas: the crawl frontier

The correctness proof of `crawlRun` is the classical worklist argument: an
invariant (queues and processed sets stay inside the finite universe `U`,
stay duplicate-free, cover the seeds, and are closed under discovered
links), and a strictly decreasing measure showing the loop drains within
`4·|U| + 1` steps. -/

/-- `v` is reachable from the seed set along extracted links. -/
def reachesFrom (g : String → List String) (seeds : List String) (v : String) : Prop :=
  ∃ s ∈ seeds, Relation.ReflTransGen (fun a b => b ∈ g a) s v

theorem mem_enqueueLinks {p : List String} :
    ∀ (links q : List String) (x : String),
      x ∈ enqueueLinks links q p ↔ x ∈ q ∨ (x ∈ links ∧ x ∉ p) := by
  intro links
  induction links with
  | nil => intro q x; simp [enqueueLinks]
  | cons l ls ih =>
    intro q x
    unfold enqueueLinks at ih ⊢
    rw [List.foldl_cons]
    by_cases hc : (p.contains l || q.contains l) = true
    · rw [if_pos hc, ih]
      have hlc : l ∈ p ∨ l ∈ q := by
        rw [contains_eq_decide_mem, contains_eq_decide_mem] at hc
        simpa using hc
      constructor
      · rintro (hx | ⟨hx, hnp⟩)
        · exact Or.inl hx
        · exact Or.inr ⟨List.mem_cons_of_mem _ hx, hnp⟩
      · rintro (hx | ⟨hx, hnp⟩)
        · exact Or.inl hx
        · rcases List.mem_cons.mp hx with rfl | hx
          · rcases hlc with h | h
            · exact absurd h hnp
            · exact Or.inl h
          · exact Or.inr ⟨hx, hnp⟩
    · rw [if_neg hc, ih]
      have hl : l ∉ p ∧ l ∉ q := by
        rw [contains_eq_decide_mem, contains_eq_decide_mem] at hc
        simpa [not_or] using hc
      constructor
      · rintro (hx | ⟨hx, hnp⟩)
        · rcases List.mem_append.mp hx with hx | hx
          · exact Or.inl hx
          · simp only [List.mem_singleton] at hx
            subst hx
            exact Or.inr ⟨List.mem_cons_self _ _, hl.1⟩
        · exact Or.inr ⟨List.mem_cons_of_mem _ hx, hnp⟩
      · rintro (hx | ⟨hx, hnp⟩)
        · exact Or.inl (List.mem_append.mpr (Or.inl hx))
        · rcases List.mem_cons.mp hx with rfl | hx
          · exact Or.inl (List.mem_append.mpr (Or.inr (by simp)))
          · exact Or.inr ⟨hx, hnp⟩

theorem nodup_enqueueLinks {p : List String} :
    ∀ (links q : List String), q.Nodup → (enqueueLinks links q p).Nodup := by
  intro links
  induction links with
  | nil => intro q h; exact h
  | cons l ls ih =>
    intro q h
    unfold enqueueLinks at ih ⊢
    rw [List.foldl_cons]
    by_cases hc : (p.contains l || q.contains l) = true
    · rw [if_pos hc]
      exact ih q h
    · rw [if_neg hc]
      apply ih
      have hl : l ∉ q := by
        rw [contains_eq_decide_mem, contains_eq_decide_mem] at hc
        simp [not_or] at hc
        exact hc.2
      simp [List.nodup_append, h, hl]

/-- Universe elements outside both the queue and the processed set. -/
def outQP (U q p : List String) : Nat :=
  (U.filter fun x => !(q.contains x || p.contains x)).length

/-- Universe elements not yet processed. -/
def outP (U p : List String) : Nat :=
  (U.filter fun x => !(p.contains x)).length

/-- The loop measure: every `crawlRun` step strictly decreases it. -/
def crawlM (U q p : List String) : Nat :=
  q.length + 2 * outQP U q p + outP U p

theorem length_filter_mono {pb qb : String → Bool} (U : List String)
    (h : ∀ x ∈ U, pb x = true → qb x = true) :
    (U.filter pb).length ≤ (U.filter qb).length := by
  rw [← List.countP_eq_length_filter, ← List.countP_eq_length_filter]
  exact List.countP_mono_left h

theorem length_filter_strict {pb qb : String → Bool} :
    ∀ (U : List String), (∀ x ∈ U, pb x = true → qb x = true) →
      ∀ u ∈ U, pb u = false → qb u = true →
      (U.filter pb).length < (U.filter qb).length := by
  intro U
  induction U with
  | nil =>
    intro _ u hu
    simp at hu
  | cons a U ih =>
    intro h u hu hp hq
    rw [List.filter_cons, List.filter_cons]
    have hmono := length_filter_mono U fun x hx => h x (List.mem_cons_of_mem _ hx)
    rcases List.mem_cons.mp hu with rfl | hu
    · simp only [hp, hq, Bool.false_eq_true, if_false, if_true]
      simp only [List.length_cons]
      omega
    · have hs := ih (fun x hx => h x (List.mem_cons_of_mem _ hx)) u hu hp hq
      by_cases ha : pb a = true
      · have hqa := h a (List.mem_cons_self _ _) ha
        simp only [ha, hqa, if_true, List.length_cons]
        omega
      · have ha' : pb a = false := by revert ha; cases pb a <;> simp
        simp only [ha', Bool.false_eq_true, if_false]
        cases hqa : qb a
        · simp only [Bool.false_eq_true, if_false]
          exact hs
        · simp only [if_true, List.length_cons]
          omega

/-- Popping an already-processed head leaves `outQP` unchanged. -/
theorem outQP_skip {U qs p : List String} {u : String} (hu : u ∈ p) :
    outQP U (u :: qs) p = outQP U qs p := by
  unfold outQP
  congr 1
  apply List.filter_congr
  intro x _
  simp only [contains_eq_decide_mem, List.mem_cons]
  by_cases hx : x = u
  · subst hx
    simp [hu]
  · simp [hx]

/-- Moving the head from the queue to the processed set leaves `outQP`
unchanged. -/
theorem outQP_move {U qs p : List String} {u : String} :
    outQP U (u :: qs) p = outQP U qs (p ++ [u]) := by
  unfold outQP
  congr 1
  apply List.filter_congr
  intro x _
  simp only [contains_eq_decide_mem, List.mem_cons, List.mem_append, List.mem_singleton]
  by_cases hx : x = u
  · subst hx
    simp
  · simp [hx]

/-- Processing a new universe element strictly shrinks the unprocessed
count. -/
theorem outP_process {U p : List String} {u : String} (hU : u ∈ U) (hp : u ∉ p) :
    outP U (p ++ [u]) < outP U p := by
  unfold outP
  apply length_filter_strict U
  · intro x _ hcond
    simp [contains_eq_decide_mem] at hcond ⊢
    tauto
  · exact hU
  · simp [contains_eq_decide_mem]
  · simp [contains_eq_decide_mem, hp]

/-- Enqueuing the links of `u` (membership checked against `p`, the set
before `u` was marked) costs at most one unit of the measure taken against
`p ++ [u]`: each genuinely new link pays for its own queue slot out of the
unexplored count, and only a self-link of `u` (already absorbed by
`p ++ [u]`) can add one. -/
theorem enqueue_measure {U p : List String} {u : String} :
    ∀ (links q : List String), (∀ l ∈ links, l ∈ U) →
      (enqueueLinks links q p).length + 2 * outQP U (enqueueLinks links q p) (p ++ [u]) ≤
        q.length + 2 * outQP U q (p ++ [u]) + (if u ∈ q then 0 else 1) := by
  intro links
  induction links with
  | nil =>
    intro q _
    simp only [enqueueLinks, List.foldl_nil]
    split <;> omega
  | cons l ls ih =>
    intro q hU
    have hUls : ∀ x ∈ ls, x ∈ U := fun x hx => hU x (List.mem_cons_of_mem _ hx)
    have hstep : enqueueLinks (l :: ls) q p =
        enqueueLinks ls (if (p.contains l || q.contains l) = true then q else q ++ [l]) p := by
      unfold enqueueLinks
      rw [List.foldl_cons]
    by_cases hc : (p.contains l || q.contains l) = true
    · rw [hstep, if_pos hc]
      exact ih q hUls
    · rw [hstep, if_neg hc]
      have hl : l ∉ p ∧ l ∉ q := by
        rw [contains_eq_decide_mem, contains_eq_decide_mem] at hc
        simpa [not_or] using hc
      by_cases hlu : l = u
      · subst hlu
        have hout : outQP U (q ++ [l]) (p ++ [l]) = outQP U q (p ++ [l]) := by
          unfold outQP
          congr 1
          apply List.filter_congr
          intro x _
          simp only [contains_eq_decide_mem, List.mem_append, List.mem_singleton]
          by_cases hx : x = l
          · subst hx
            simp
          · simp [hx]
        have hrec := ih (q ++ [l]) hUls
        rw [hout] at hrec
        have hmem : l ∈ q ++ [l] := List.mem_append.mpr (Or.inr (by simp))
        rw [if_pos hmem] at hrec
        rw [if_neg hl.2]
        simp only [List.length_append, List.length_singleton] at hrec ⊢
        omega
      · have hout : outQP U (q ++ [l]) (p ++ [u]) + 1 ≤ outQP U q (p ++ [u]) := by
          have : outQP U (q ++ [l]) (p ++ [u]) < outQP U q (p ++ [u]) := by
            unfold outQP
            apply length_filter_strict U
            · intro x _ hcond
              simp [contains_eq_decide_mem] at hcond ⊢
              tauto
            · exact hU l (List.mem_cons_self _ _)
            · simp [contains_eq_decide_mem]
            · simp [contains_eq_decide_mem, hl.1, hl.2, hlu]
          omega
        have hmemiff : (u ∈ q ++ [l]) ↔ u ∈ q := by
          simp only [List.mem_append, List.mem_singleton]
          constructor
          · rintro (h | h)
            · exact h
            · exact absurd h.symm hlu
          · exact Or.inl
        have := ih (q ++ [l]) hUls
        simp only [List.length_append, List.length_singleton] at this
        by_cases hq : u ∈ q
        · rw [if_pos (hmemiff.mpr hq)] at this
          rw [if_pos hq]
          omega
        · rw [if_neg (fun hh => hq (hmemiff.mp hh))] at this
          rw [if_neg hq]
          omega

/-- Skipping an already-processed head strictly decreases the measure. -/
theorem crawlM_skip {U qs p : List String} {u : String} (hu : u ∈ p) :
    crawlM U qs p + 1 ≤ crawlM U (u :: qs) p := by
  unfold crawlM
  rw [outQP_skip hu]
  simp only [List.length_cons]
  omega

/-- Processing a fresh head strictly decreases the measure. -/
theorem crawlM_process {U qs p : List String} {u : String} (links : List String)
    (hu : u ∉ p) (hU : u ∈ U) (hlinks : ∀ l ∈ links, l ∈ U) (hq : u ∉ qs) :
    crawlM U (enqueueLinks links qs p) (p ++ [u]) + 1 ≤ crawlM U (u :: qs) p := by
  have hA : outQP U (u :: qs) p = outQP U qs (p ++ [u]) := outQP_move
  have hB : outP U (p ++ [u]) < outP U p := outP_process hU hu
  have hC := @enqueue_measure U p u links qs hlinks
  rw [if_neg hq] at hC
  unfold crawlM
  rw [hA]
  simp only [List.length_cons]
  omega

/-- The frontier invariant: both structures are duplicate-free and inside the
universe, seeds are covered, processed pages have all their links queued or
processed, and everything seen is reachable. -/
structure CrawlInv (g : String → List String) (U seeds q p : List String) : Prop where
  nodupQ : q.Nodup
  nodupP : p.Nodup
  qU : ∀ x ∈ q, x ∈ U
  pU : ∀ x ∈ p, x ∈ U
  seedsCov : ∀ s ∈ seeds, s ∈ q ∨ s ∈ p
  closure : ∀ v ∈ p, ∀ w ∈ g v, w ∈ q ∨ w ∈ p
  qReach : ∀ x ∈ q, reachesFrom g seeds x
  pReach : ∀ x ∈ p, reachesFrom g seeds x

theorem crawlInv_skip {g : String → List String} {U seeds qs p : List String} {u : String}
    (hu : u ∈ p) (h : CrawlInv g U seeds (u :: qs) p) : CrawlInv g U seeds qs p where
  nodupQ := h.nodupQ.of_cons
  nodupP := h.nodupP
  qU := fun x hx => h.qU x (List.mem_cons_of_mem _ hx)
  pU := h.pU
  seedsCov := fun s hs => by
    rcases h.seedsCov s hs with hq | hp
    · rcases List.mem_cons.mp hq with rfl | hq
      · exact Or.inr hu
      · exact Or.inl hq
    · exact Or.inr hp
  closure := fun v hv w hw => by
    rcases h.closure v hv w hw with hq | hp
    · rcases List.mem_cons.mp hq with rfl | hq
      · exact Or.inr hu
      · exact Or.inl hq
    · exact Or.inr hp
  qReach := fun x hx => h.qReach x (List.mem_cons_of_mem _ hx)
  pReach := h.pReach

theorem crawlInv_process {g : String → List String} {U seeds qs p : List String} {u : String}
    (hu : u ∉ p) (hgU : ∀ x ∈ U, ∀ v ∈ g x, v ∈ U)
    (h : CrawlInv g U seeds (u :: qs) p) :
    CrawlInv g U seeds (enqueueLinks (g u) qs p) (p ++ [u]) := by
  have huU : u ∈ U := h.qU u (List.mem_cons_self _ _)
  have hmemE : ∀ x, x ∈ enqueueLinks (g u) qs p ↔ x ∈ qs ∨ (x ∈ g u ∧ x ∉ p) :=
    fun x => mem_enqueueLinks (g u) qs x
  refine ⟨?_, ?_, ?_, ?_, ?_, ?_, ?_, ?_⟩
  · exact nodup_enqueueLinks _ _ (List.nodup_cons.mp h.nodupQ).2
  · simp [List.nodup_append, h.nodupP, hu]
  · intro x hx
    rcases (hmemE x).mp hx with hx | ⟨hx, _⟩
    · exact h.qU x (List.mem_cons_of_mem _ hx)
    · exact hgU u huU x hx
  · intro x hx
    rcases List.mem_append.mp hx with hx | hx
    · exact h.pU x hx
    · simp only [List.mem_singleton] at hx
      subst hx
      exact huU
  · intro s hs
    rcases h.seedsCov s hs with hq | hp
    · rcases List.mem_cons.mp hq with rfl | hq
      · exact Or.inr (List.mem_append.mpr (Or.inr (by simp)))
      · exact Or.inl ((hmemE s).mpr (Or.inl hq))
    · exact Or.inr (List.mem_append.mpr (Or.inl hp))
  · intro v hv w hw
    rcases List.mem_append.mp hv with hv | hv
    · rcases h.closure v hv w hw with hq | hp
      · rcases List.mem_cons.mp hq with rfl | hq
        · exact Or.inr (List.mem_append.mpr (Or.inr (by simp)))
        · exact Or.inl ((hmemE w).mpr (Or.inl hq))
      · exact Or.inr (List.mem_append.mpr (Or.inl hp))
    · simp only [List.mem_singleton] at hv
      subst hv
      by_cases hwp : w ∈ p
      · exact Or.inr (List.mem_append.mpr (Or.inl hwp))
      · by_cases hwq : w ∈ qs
        · exact Or.inl ((hmemE w).mpr (Or.inl hwq))
        · exact Or.inl ((hmemE w).mpr (Or.inr ⟨hw, hwp⟩))
  · intro x hx
    rcases (hmemE x).mp hx with hx | ⟨hx, _⟩
    · exact h.qReach x (List.mem_cons_of_mem _ hx)
    · rcases h.qReach u (List.mem_cons_self _ _) with ⟨s, hs, hrt⟩
      exact ⟨s, hs, hrt.tail hx⟩
  · intro x hx
    rcases List.mem_append.mp hx with hx | hx
    · exact h.pReach x hx
    · simp only [List.mem_singleton] at hx
      subst hx
      exact h.qReach x (List.mem_cons_self _ _)

/-- With enough fuel, the frontier drains completely, and the invariant is
carried to the final state. -/
theorem crawlRun_drains (g : String → List String) (U seeds : List String)
    (hgU : ∀ x ∈ U, ∀ v ∈ g x, v ∈ U) :
    ∀ (fuel : Nat) (q p : List String), CrawlInv g U seeds q p → crawlM U q p < fuel →
      (crawlRun g fuel q p).1 = [] ∧ CrawlInv g U seeds [] (crawlRun g fuel q p).2 := by
  intro fuel
  induction fuel with
  | zero =>
    intro q p _ hm
    omega
  | succ fuel ih =>
    intro q p hinv hm
    cases q with
    | nil => exact ⟨rfl, hinv⟩
    | cons u qs =>
      by_cases hu : u ∈ p
      · have hcont : p.contains u = true := by
          rw [contains_eq_decide_mem]
          simpa using hu
        have hstep : crawlRun g (fuel + 1) (u :: qs) p = crawlRun g fuel qs p := by
          rw [crawlRun_cons, hcont]
          simp
        rw [hstep]
        apply ih qs p (crawlInv_skip hu hinv)
        have := @crawlM_skip U qs p u hu
        omega
      · have hcont : p.contains u = false := by
          rw [contains_eq_decide_mem]
          simpa using hu
        have hstep : crawlRun g (fuel + 1) (u :: qs) p =
            crawlRun g fuel (enqueueLinks (g u) qs p) (p ++ [u]) := by
          rw [crawlRun_cons, hcont]
          simp
        rw [hstep]
        apply ih _ _ (crawlInv_process hu hgU hinv)
        have huU : u ∈ U := hinv.qU u (List.mem_cons_self _ _)
        have huq : u ∉ qs := (List.nodup_cons.mp hinv.nodupQ).1
        have hlinks : ∀ l ∈ g u, l ∈ U := hgU u huU
        have := @crawlM_process U qs p u (g u) hu huU hlinks huq
        omega

/-- At termination every reachable raw path has been processed. -/
theorem reach_mem_of_inv {g : String → List String} {U seeds p : List String}
    (h : CrawlInv g U seeds [] p) :
    ∀ v, reachesFrom g seeds v → v ∈ p := by
  rintro v ⟨s, hs, hrt⟩
  induction hrt with
  | refl =>
    rcases h.seedsCov s hs with hq | hp
    · simp at hq
    · exact hp
  | tail _ hbc ih =>
    rcases h.closure _ ih _ hbc with hq | hp
    · simp at hq
    · exact hp

theorem crawlM_init (U seeds : List String) (hnd : seeds.Nodup)
    (hsub : ∀ s ∈ seeds, s ∈ U) : crawlM U seeds [] ≤ 4 * U.length := by
  unfold crawlM outQP outP
  have h1 : seeds.length ≤ U.length := (List.subperm_of_subset hnd hsub).length_le
  have h2 := List.length_filter_le (fun x => !(seeds.contains x || List.contains [] x)) U
  have h3 := List.length_filter_le (fun x => !(List.contains [] x)) U
  omega

/-! #### C1 -/

/-- A page whose two links are different raw spellings of the same canonical
path. -/
def exGraph : String → List String := fun s =>
  if s = "/" then ["/a?x=1&y=2", "/a?y=2&x=1"] else []

/-- **C1** counterexample (corrected).  The crawl deduplicates by *raw*
string, not canonical path: the two spellings `/a?x=1&y=2` and
`/a?y=2&x=1` of one canonical path `/a/x-1-y-2/` are both processed (each
fetched separately), so the same canonical path is visited twice and the
two raws are not "fetched at most once between them". -/
theorem c1_same_canonical_double_fetch :
    queryParamsToPath "/a?x=1&y=2" = queryParamsToPath "/a?y=2&x=1" ∧
    ("/a?x=1&y=2" : String) ≠ "/a?y=2&x=1" ∧
    "/a?x=1&y=2" ∈ (crawlRun exGraph 9 ["/"] []).2 ∧
    "/a?y=2&x=1" ∈ (crawlRun exGraph 9 ["/"] []).2 := by
  decide

set_option maxHeartbeats 1000000 in
/-- **C1** amended.  With dedup keyed on exact raw strings: for any finite
same-origin link graph (universe `U` closed under links) the crawl loop
drains within `4·|U| + 1` steps and processes every reachable *raw* path
exactly once (the processed list is duplicate-free and contains exactly the
reachable raw paths), assuming every fetch succeeds; distinct raw spellings
of one canonical path are each fetched once, but raw paths with equal
canonical forms always map to the same output file. -/
theorem c1_amended_raw_dedup (g : String → List String) (U seeds : List String) (fuel : Nat)
    (hseed : seeds.Nodup) (hsU : ∀ s ∈ seeds, s ∈ U)
    (hgU : ∀ x ∈ U, ∀ v ∈ g x, v ∈ U)
    (hfuel : 4 * U.length + 1 ≤ fuel) :
    (crawlRun g fuel seeds []).1 = [] ∧
    (crawlRun g fuel seeds []).2.Nodup ∧
    (∀ v, v ∈ (crawlRun g fuel seeds []).2 ↔ reachesFrom g seeds v) ∧
    (∀ (root u v : String), queryParamsToPath u = queryParamsToPath v →
      writeOutputPath root u = writeOutputPath root v) := by
  have hinv0 : CrawlInv g U seeds seeds [] :=
    ⟨hseed, List.nodup_nil, hsU, by simp, fun s hs => Or.inl hs, by simp,
      fun x hx => ⟨x, hx, Relation.ReflTransGen.refl⟩, by simp⟩
  have hm := crawlM_init U seeds hseed hsU
  have hrun := crawlRun_drains g U seeds hgU fuel seeds [] hinv0 (by omega)
  refine ⟨hrun.1, hrun.2.nodupP, ?_, ?_⟩
  · intro v
    exact ⟨fun hv => hrun.2.pReach v hv, fun hv => reach_mem_of_inv hrun.2 v hv⟩
  · intro root u v h
    unfold writeOutputPath
    rw [h]

/-- A two-page universe for the C1 witness. -/
def exGraphW : String → List String := fun s => if s = "/" then ["/a/", "/"] else []

def exUniverse : List String := ["/", "/a/"]

/-- Witness for the amended C1 at a concrete two-page site. -/
theorem c1_witness :
    ((["/"] : List String).Nodup ∧ (∀ s ∈ (["/"] : List String), s ∈ exUniverse) ∧
      (∀ x ∈ exUniverse, ∀ v ∈ exGraphW x, v ∈ exUniverse) ∧
      4 * exUniverse.length + 1 ≤ 9) ∧
    ((crawlRun exGraphW 9 ["/"] []).1 = [] ∧
      (crawlRun exGraphW 9 ["/"] []).2.Nodup ∧
      (∀ v, v ∈ (crawlRun exGraphW 9 ["/"] []).2 ↔ reachesFrom exGraphW ["/"] v) ∧
      (∀ (root u v : String), queryParamsToPath u = queryParamsToPath v →
        writeOutputPath root u = writeOutputPath root v)) :=
  ⟨⟨by decide, by decide, by decide, by decide⟩,
    c1_amended_raw_dedup exGraphW exUniverse ["/"] 9 (by decide) (by decide)
      (by decide) (by decide)⟩

end AposStatic
